import Mathlib

/-!
Verification development for the neu game-engine core
(Actor/Component/Scene lifecycle, Factory, ResourceManager, EventManager,
string canonicalization).  Each definition is a shallow embedding of the
corresponding C++ function under `src/Source/Engine`; machine floats are
modelled by exact rationals, C++ strings by character lists, and observable
side effects (component updates, lifecycle hooks, log output) by explicit
traces returned alongside the new state.
-/

namespace Neu

/-- Model of a C++ `std::string`: its list of characters. -/
abbrev Str := List Char

/-- Model of `std::tolower` on a single character as it behaves in the "C"
locale on the ASCII range (the only range the engine feeds it): uppercase
ASCII letters are shifted down by 32, every other character is unchanged. -/
def charLower (c : Char) : Char :=
  if 'A' ≤ c ∧ c ≤ 'Z' then Char.ofNat (c.toNat + 32) else c

/-- Embedding of `neu::toLower` (StringHelper.h, lines 14-25): copy the
string and lower each character in place. -/
def toLower (s : Str) : Str := s.map charLower

/-- Embedding of `neu::equalsIgnoreCase` (StringHelper.h, lines 56-65):
early-exit on differing lengths, then `std::equal` over the character
pairs comparing the lowercase forms. -/
def equalsIgnoreCase (s1 s2 : Str) : Bool :=
  if s1.length ≠ s2.length then false
  else (List.zip s1 s2).all fun p => charLower p.1 == charLower p.2

theorem equalsIgnoreCase_nil_left (s2 : Str) :
    equalsIgnoreCase [] s2 = true ↔ s2 = [] := by
  cases s2 <;> simp [equalsIgnoreCase]

/-- C10: the two string-canonicalization mechanisms agree —
`equalsIgnoreCase s1 s2` holds exactly when `toLower s1 = toLower s2`,
so case-insensitive matching (Scene name/tag queries) identifies exactly
the strings that lowercase-key canonicalization (Factory, ResourceManager,
EventManager) maps to the same key. -/
theorem equalsIgnoreCase_iff_toLower_eq (s1 s2 : Str) :
    equalsIgnoreCase s1 s2 = true ↔ toLower s1 = toLower s2 := by
  induction s1 generalizing s2 with
  | nil =>
    rw [equalsIgnoreCase_nil_left]
    cases s2 <;> simp [toLower]
  | cons a t ih =>
    cases s2 with
    | nil => simp [equalsIgnoreCase, toLower]
    | cons b t2 =>
      by_cases h : t.length = t2.length
      · have hz : equalsIgnoreCase (a :: t) (b :: t2)
            = ((charLower a == charLower b) && (List.zip t t2).all
                fun p => charLower p.1 == charLower p.2) := by
          simp [equalsIgnoreCase, h]
        have ht : equalsIgnoreCase t t2
            = (List.zip t t2).all fun p => charLower p.1 == charLower p.2 := by
          simp [equalsIgnoreCase, h]
        rw [hz]
        constructor
        · intro hand
          have h1 := (Bool.and_eq_true _ _).mp hand
          have hab : charLower a = charLower b := by
            have := h1.1; simpa using this
          have htail : toLower t = toLower t2 := (ih t2).mp (by rw [ht]; exact h1.2)
          simp [toLower] at htail ⊢
          exact ⟨hab, htail⟩
        · intro heq
          simp [toLower] at heq
          have htail := (ih t2).mpr (by simp [toLower, heq.2])
          rw [ht] at htail
          simp [heq.1, htail]
      · have hf : equalsIgnoreCase (a :: t) (b :: t2) = false := by
          simp [equalsIgnoreCase]
          intro hlen
          exact absurd hlen h
        rw [hf]
        constructor
        · intro hc; exact absurd hc (by simp)
        · intro heq
          have : t.map charLower ≠ t2.map charLower := by
            intro hmap
            exact h (by simpa using congrArg List.length hmap)
          simp [toLower] at heq
          exact absurd heq.2 this

/-- Model of neu::Transform (Math/Transform.h): 2D position, rotation angle
and uniform scale; machine floats modelled by exact rationals. -/
structure Transform where
  position : ℚ × ℚ := (0, 0)
  rotation : ℚ := 0
  scale : ℚ := 1
  deriving DecidableEq, Repr

/-- Model of a concrete neu::Component (Framework/Component.h): the Object
base supplies name and active; owner is the back-pointer to the owning
Actor, modelled as that actor's id (none = nullptr).  The updates counter
records how many times the component's virtual Update has been invoked —
the observable effect of a component update at this abstraction level. -/
structure Component where
  name : Str := []
  active : Bool := true
  owner : Option Nat := none
  updates : Nat := 0
  deriving DecidableEq, Repr

/-- One virtual Component::Update call, recorded on the counter. -/
def Component.update (c : Component) : Component :=
  { c with updates := c.updates + 1 }

/-- Model of Component::Clone as generated by CLASS_PROTOTYPE for each
concrete component class: copy-construct the component, producing a fresh
object whose fields are a field-for-field copy of the original. -/
def Component.clone (c : Component) : Component := c

/-- Model of neu::Actor (Framework/Actor.h): Object supplies name and
active; the id field models the object's address (its identity), used as
the referent of owner/back-pointer links. -/
structure Actor where
  id : Nat
  name : Str := []
  active : Bool := true
  tag : Str := []
  destroyed : Bool := false
  persistent : Bool := false
  lifespan : ℚ := 0
  scene : Option Nat := none
  transform : Transform := {}
  components : List Component := []
  deriving DecidableEq, Repr

/-- Embedding of Actor::AddComponent (Actor.cpp, lines 144-153): set the
component's owner back-reference to this actor, then push it onto the back
of the component list. -/
def Actor.AddComponent (a : Actor) (c : Component) : Actor :=
  { a with components := a.components ++ [{ c with owner := some a.id }] }

/-- Embedding of the Actor copy constructor (Actor.cpp, lines 19-37).  The
initializer list copies the Object base (name, active), tag, lifespan and
transform; every other member — destroyed, persistent, scene, components —
falls back to its default member initializer.  The body then clones each of
the source's components and re-attaches the clone via AddComponent.  The
newId argument models the address of the actor being constructed. -/
def Actor.copy (other : Actor) (newId : Nat) : Actor :=
  (other.components.map Component.clone).foldl Actor.AddComponent
    { id := newId
      name := other.name
      active := other.active
      tag := other.tag
      lifespan := other.lifespan
      transform := other.transform }

theorem foldl_AddComponent (cs : List Component) (a : Actor) :
    cs.foldl Actor.AddComponent a
      = { a with components :=
            a.components ++ cs.map fun c => { c with owner := some a.id } } := by
  induction cs generalizing a with
  | nil => simp
  | cons c rest ih =>
    simp only [List.foldl_cons, List.map_cons]
    rw [ih]
    simp [Actor.AddComponent]

/-- Indices (attachment positions) of the components whose active flag is
set, in attachment order: these are exactly the components whose Update is
invoked by one pass of the component-update loop in Actor::Update. -/
def activeIndices (comps : List Component) : List Nat :=
  (comps.enum.filter fun p => p.2.active).map Prod.fst

/-- One pass of the component-update loop in Actor::Update: every component
with active == true receives one Update call, the rest are untouched. -/
def updateComponents (comps : List Component) : List Component :=
  comps.map fun c => if c.active then c.update else c

/-- Embedding of Actor::Update (Actor.cpp, lines 79-106): early-out when
destroyed; when lifespan > 0, decrement it by dt and on crossing to ≤ 0 set
destroyed and return before any component update; otherwise run the
component-update loop.  The second result is the trace of component updates
performed by this call (attachment positions, in invocation order). -/
def Actor.Update (a : Actor) (dt : ℚ) : Actor × List Nat :=
  if a.destroyed then (a, [])
  else if 0 < a.lifespan then
    if a.lifespan - dt ≤ 0 then
      ({ a with lifespan := a.lifespan - dt, destroyed := true }, [])
    else
      ({ a with
          lifespan := a.lifespan - dt
          components := updateComponents a.components },
        activeIndices a.components)
  else ({ a with components := updateComponents a.components },
        activeIndices a.components)

/-- A sequence of Actor::Update calls with the given delta times. -/
def Actor.runUpdates (a : Actor) (dts : List ℚ) : Actor :=
  dts.foldl (fun x dt => (x.Update dt).1) a

theorem update_fst_id (a : Actor) (dt : ℚ) : ((a.Update dt).1).id = a.id := by
  unfold Actor.Update
  split
  · rfl
  · split
    · split <;> rfl
    · rfl

theorem mem_activeIndices (comps : List Component) (i : Nat) :
    i ∈ activeIndices comps
      ↔ ∃ h : i < comps.length, (comps.get ⟨i, h⟩).active = true := by
  simp only [activeIndices, List.mem_map, List.mem_filter]
  constructor
  · rintro ⟨⟨j, c⟩, ⟨hmem, hact⟩, rfl⟩
    have hj := List.mem_enum_iff_get?.mp hmem
    have hlt : j < comps.length := by
      have := List.get?_eq_some.mp hj
      exact this.1
    refine ⟨hlt, ?_⟩
    have hg : comps.get ⟨j, hlt⟩ = c := by
      have := List.get?_eq_some.mp hj
      obtain ⟨h2, hget⟩ := this
      simpa using hget
    rw [hg]
    exact hact
  · rintro ⟨h, hact⟩
    refine ⟨(i, comps.get ⟨i, h⟩), ⟨?_, hact⟩, rfl⟩
    exact List.mem_enum_iff_get?.mpr (List.get?_eq_get h)

theorem activeIndices_sorted (comps : List Component) :
    (activeIndices comps).Sorted (· < ·) := by
  have hsub : List.Sublist (activeIndices comps) (comps.enum.map Prod.fst) := by
    simp only [activeIndices]
    exact List.Sublist.map Prod.fst (List.filter_sublist comps.enum)
  have hr : comps.enum.map Prod.fst = List.range comps.length := by
    simp [List.enum_map_fst]
  rw [hr] at hsub
  exact (List.sorted_lt_range _).sublist hsub

/-- A concrete actor with both one-way flags raised, exhibiting the fields
that the copy constructor's initializer list omits. -/
def persistentOrig : Actor :=
  { id := 0, name := "p".toList, persistent := true, destroyed := true }

/-- C3 counterexample: the Actor copy constructor does not copy every
plain-old-data field — the persistent and destroyed flags of the copy fall
back to their default member initializers (false) instead of the
original's values. -/
theorem actor_copy_drops_flags :
    (Actor.copy persistentOrig 1).persistent ≠ persistentOrig.persistent
      ∧ (Actor.copy persistentOrig 1).destroyed ≠ persistentOrig.destroyed := by
  decide

/-- C3 (amended): the Actor copy constructor copies name, active, tag,
lifespan and transform from the original, resets destroyed, persistent and
the scene pointer to their defaults, and deep-clones every component in
attachment order, re-attaching each clone so its owner refers to the newly
constructed actor rather than the original. -/
theorem actor_copy_spec (other : Actor) (newId : Nat) :
    (Actor.copy other newId).id = newId ∧
    (Actor.copy other newId).name = other.name ∧
    (Actor.copy other newId).active = other.active ∧
    (Actor.copy other newId).tag = other.tag ∧
    (Actor.copy other newId).lifespan = other.lifespan ∧
    (Actor.copy other newId).transform = other.transform ∧
    (Actor.copy other newId).destroyed = false ∧
    (Actor.copy other newId).persistent = false ∧
    (Actor.copy other newId).scene = none ∧
    (Actor.copy other newId).components
      = other.components.map fun c => { c with owner := some newId } := by
  unfold Actor.copy
  rw [foldl_AddComponent]
  refine ⟨rfl, rfl, rfl, rfl, rfl, rfl, rfl, rfl, rfl, ?_⟩
  simp [Component.clone, List.map_map, Function.comp]

theorem runUpdates_alive (dts : List ℚ) (a : Actor)
    (hd : a.destroyed = false) (hl : 0 < a.lifespan)
    (hs : ∀ n, n ≤ dts.length → (dts.take n).sum < a.lifespan) :
    (a.runUpdates dts).destroyed = false
      ∧ (a.runUpdates dts).lifespan = a.lifespan - dts.sum := by
  induction dts generalizing a with
  | nil => simp [Actor.runUpdates, hd]
  | cons d rest ih =>
    have hd1 : d < a.lifespan := by
      have := hs 1 (by simp)
      simpa using this
    have hnot : ¬ a.lifespan - d ≤ 0 := by linarith
    have hupd : (a.Update d).1.destroyed = false
        ∧ (a.Update d).1.lifespan = a.lifespan - d
        := by
      simp [Actor.Update, hd, hl, hnot]
    have hrun : a.runUpdates (d :: rest) = ((a.Update d).1).runUpdates rest := by
      simp [Actor.runUpdates]
    rw [hrun]
    have hpre : ∀ n, n ≤ rest.length
        → (rest.take n).sum < (a.Update d).1.lifespan := by
      intro n hn
      rw [hupd.2]
      have := hs (n + 1) (by simpa using Nat.succ_le_succ hn)
      simp only [List.take_succ_cons, List.sum_cons] at this
      linarith
    have hres := ih (a.Update d).1 hupd.1 (by rw [hupd.2]; linarith) hpre
    refine ⟨hres.1, ?_⟩
    rw [hres.2, hupd.2, List.sum_cons]
    ring

/-- C2: contract of Actor::Update.  (1) already-destroyed actors are
untouched and update no component; (2) with positive lifespan, the call
decrements lifespan by dt and, on crossing to ≤ 0 (zero included), raises
destroyed and skips every component update that frame; (3) otherwise the
lifespan is decremented and exactly the components whose active flag is
set receive one Update, in attachment order; (4) over a run of updates, the
actor survives while the cumulative deltas stay below the initial lifespan
and is destroyed — with no component update that frame — by the call whose
delta makes the cumulative sum reach or exceed it. -/
theorem actor_update_contract :
    (∀ (a : Actor) (dt : ℚ), a.destroyed = true → a.Update dt = (a, [])) ∧
    (∀ (a : Actor) (dt : ℚ), a.destroyed = false → 0 < a.lifespan →
      a.lifespan - dt ≤ 0 →
        (a.Update dt).1.destroyed = true ∧
        (a.Update dt).1.lifespan = a.lifespan - dt ∧
        (a.Update dt).2 = [] ∧
        (a.Update dt).1.components = a.components) ∧
    (∀ (a : Actor) (dt : ℚ), a.destroyed = false → 0 < a.lifespan →
      0 < a.lifespan - dt →
        (a.Update dt).1.destroyed = false ∧
        (a.Update dt).1.lifespan = a.lifespan - dt ∧
        (a.Update dt).2 = activeIndices a.components ∧
        (a.Update dt).1.components = updateComponents a.components) ∧
    (∀ (a : Actor) (dts : List ℚ) (dt : ℚ),
      a.destroyed = false → 0 < a.lifespan →
      (∀ n, n ≤ dts.length → (dts.take n).sum < a.lifespan) →
      a.lifespan - (dts.sum + dt) ≤ 0 →
        ((a.runUpdates dts).Update dt).1.destroyed = true ∧
        ((a.runUpdates dts).Update dt).2 = []) := by
  refine ⟨?_, ?_, ?_, ?_⟩
  · intro a dt h
    simp [Actor.Update, h]
  · intro a dt hd hl hcross
    simp [Actor.Update, hd, hl, hcross]
  · intro a dt hd hl hlive
    have : ¬ a.lifespan - dt ≤ 0 := by linarith
    simp [Actor.Update, hd, hl, this]
  · intro a dts dt hd hl hs hcross
    obtain ⟨hd2, hl2⟩ := runUpdates_alive dts a hd hl hs
    have hpos : 0 < (a.runUpdates dts).lifespan := by
      rw [hl2]
      have := hs dts.length le_rfl
      simp only [List.take_length] at this
      linarith
    have hc2 : (a.runUpdates dts).lifespan - dt ≤ 0 := by
      rw [hl2]; linarith
    simp [Actor.Update, hd2, hpos, hc2]

/-- Observable scene-level lifecycle events of one frame: an actor received
its Update(dt) call, or it was reaped — its Destroyed() hook ran and it was
erased from the container. -/
inductive Ev where
  | updated (id : Nat)
  | reaped (id : Nat)
  deriving DecidableEq, Repr

/-- Model of neu::Scene (Framework/Scene.h): the owned actor container, in
insertion order. -/
structure Scene where
  actors : List Actor
  deriving DecidableEq, Repr

/-- Phase 1 of Scene::Update (Scene.cpp, lines 31-39): every actor whose
active flag is set receives exactly one Update(dt) call, in container order
(Actor::Update itself no-ops when the actor is already destroyed). -/
def scenePhase1 (actors : List Actor) (dt : ℚ) : List Actor :=
  actors.map fun a => if a.active then (a.Update dt).1 else a

/-- Trace of phase 1: one updated event per active actor, container order. -/
def scenePhase1Trace (actors : List Actor) : List Ev :=
  (actors.map fun a => if a.active then [Ev.updated a.id] else []).join

/-- Trace of phase 2, the std::erase_if reap pass (Scene.cpp, lines 44-55):
for each actor with destroyed == true, in container order, Destroyed() runs
and the actor is erased. -/
def sceneReapTrace (actors : List Actor) : List Ev :=
  (actors.map fun a => if a.destroyed then [Ev.reaped a.id] else []).join

/-- Embedding of Scene::Update (Scene.cpp, lines 28-56): phase 1 updates
every active actor; phase 2 runs Destroyed() on each destroyed actor and
erases all of them.  Returns the new scene and the frame's event trace. -/
def Scene.Update (s : Scene) (dt : ℚ) : Scene × List Ev :=
  (⟨(scenePhase1 s.actors dt).filter fun a => !a.destroyed⟩,
   scenePhase1Trace s.actors ++ sceneReapTrace (scenePhase1 s.actors dt))

/-- Ids whose draw actually renders under Scene::Draw (Scene.cpp, lines
80-91): the scene draws each active actor, and Actor::Draw (Actor.cpp,
lines 115-135) returns early when the actor is destroyed. -/
def sceneDrawIds (s : Scene) : List Nat :=
  (s.actors.filter fun a => a.active && !a.destroyed).map fun a => a.id

theorem mem_scenePhase1Trace (l : List Actor) (e : Ev) :
    e ∈ scenePhase1Trace l
      ↔ ∃ a ∈ l, a.active = true ∧ e = Ev.updated a.id := by
  simp only [scenePhase1Trace, List.mem_join, List.mem_map]
  constructor
  · rintro ⟨_, ⟨a, ha, rfl⟩, hmem⟩
    by_cases h : a.active
    · simp only [h, if_pos, List.mem_singleton] at hmem
      exact ⟨a, ha, by simp [h], hmem⟩
    · simp [h] at hmem
  · rintro ⟨a, ha, hact, rfl⟩
    exact ⟨[Ev.updated a.id], ⟨a, ha, by simp [hact]⟩, by simp⟩

theorem mem_sceneReapTrace (l : List Actor) (e : Ev) :
    e ∈ sceneReapTrace l
      ↔ ∃ a ∈ l, a.destroyed = true ∧ e = Ev.reaped a.id := by
  simp only [sceneReapTrace, List.mem_join, List.mem_map]
  constructor
  · rintro ⟨_, ⟨a, ha, rfl⟩, hmem⟩
    by_cases h : a.destroyed
    · simp only [h, if_pos, List.mem_singleton] at hmem
      exact ⟨a, ha, by simp [h], hmem⟩
    · simp [h] at hmem
  · rintro ⟨a, ha, hdes, rfl⟩
    exact ⟨[Ev.reaped a.id], ⟨a, ha, by simp [hdes]⟩, by simp⟩

theorem count_updated_phase1Trace (l : List Actor) (i : Nat) :
    (scenePhase1Trace l).count (Ev.updated i)
      = (l.filter fun a => a.active && a.id == i).length := by
  induction l with
  | nil => simp [scenePhase1Trace]
  | cons a rest ih =>
    have hsplit : scenePhase1Trace (a :: rest)
        = (if a.active then [Ev.updated a.id] else [])
            ++ scenePhase1Trace rest := by
      simp [scenePhase1Trace]
    rw [hsplit, List.count_append, ih]
    by_cases ha : a.active
    · by_cases hid : a.id = i
      · simp [ha, hid, List.filter_cons, List.count_cons]
        omega
      · simp [ha, hid, List.filter_cons, List.count_cons]
    · simp [ha, List.filter_cons]

theorem count_reaped_reapTrace (l : List Actor) (i : Nat) :
    (sceneReapTrace l).count (Ev.reaped i)
      = (l.filter fun a => a.destroyed && a.id == i).length := by
  induction l with
  | nil => simp [sceneReapTrace]
  | cons a rest ih =>
    have hsplit : sceneReapTrace (a :: rest)
        = (if a.destroyed then [Ev.reaped a.id] else [])
            ++ sceneReapTrace rest := by
      simp [sceneReapTrace]
    rw [hsplit, List.count_append, ih]
    by_cases ha : a.destroyed
    · by_cases hid : a.id = i
      · simp [ha, hid, List.filter_cons, List.count_cons]
        omega
      · simp [ha, hid, List.filter_cons, List.count_cons]
    · simp [ha, List.filter_cons]

theorem count_reaped_phase1Trace (l : List Actor) (i : Nat) :
    (scenePhase1Trace l).count (Ev.reaped i) = 0 := by
  rw [List.count_eq_zero]
  intro hmem
  obtain ⟨a, _, _, hcon⟩ := (mem_scenePhase1Trace l _).mp hmem
  exact Ev.noConfusion hcon

theorem count_updated_reapTrace (l : List Actor) (i : Nat) :
    (sceneReapTrace l).count (Ev.updated i) = 0 := by
  rw [List.count_eq_zero]
  intro hmem
  obtain ⟨a, _, _, hcon⟩ := (mem_sceneReapTrace l _).mp hmem
  exact Ev.noConfusion hcon

theorem count_updated_zero (l : List Actor) (i : Nat)
    (h : i ∉ l.map fun a => a.id) :
    (scenePhase1Trace l).count (Ev.updated i) = 0 := by
  rw [List.count_eq_zero]
  intro hmem
  obtain ⟨a, ha, _, heq⟩ := (mem_scenePhase1Trace l _).mp hmem
  cases heq
  exact h (List.mem_map.mpr ⟨a, ha, rfl⟩)

theorem count_reaped_zero (l : List Actor) (i : Nat)
    (h : i ∉ l.map fun a => a.id) :
    (sceneReapTrace l).count (Ev.reaped i) = 0 := by
  rw [List.count_eq_zero]
  intro hmem
  obtain ⟨a, ha, _, heq⟩ := (mem_sceneReapTrace l _).mp hmem
  cases heq
  exact h (List.mem_map.mpr ⟨a, ha, rfl⟩)

theorem count_updated_of_mem (l : List Actor)
    (h : (l.map fun a => a.id).Nodup) (a : Actor) (ha : a ∈ l) :
    (scenePhase1Trace l).count (Ev.updated a.id)
      = if a.active then 1 else 0 := by
  induction l with
  | nil => cases ha
  | cons b rest ih =>
    have hsplit : scenePhase1Trace (b :: rest)
        = (if b.active then [Ev.updated b.id] else [])
            ++ scenePhase1Trace rest := by
      simp [scenePhase1Trace]
    rw [hsplit, List.count_append]
    simp only [List.map_cons, List.nodup_cons] at h
    rcases List.mem_cons.mp ha with rfl | hmem
    · rw [count_updated_zero rest a.id h.1]
      cases hba : a.active <;> simp [hba]
    · have hne : b.id ≠ a.id := fun hcon =>
        h.1 (hcon ▸ List.mem_map.mpr ⟨a, hmem, rfl⟩)
      rw [ih h.2 hmem]
      cases hbb : b.active <;> simp [hbb, List.count_cons, hne]

theorem count_reaped_of_mem (l : List Actor)
    (h : (l.map fun a => a.id).Nodup) (a : Actor) (ha : a ∈ l) :
    (sceneReapTrace l).count (Ev.reaped a.id)
      = if a.destroyed then 1 else 0 := by
  induction l with
  | nil => cases ha
  | cons b rest ih =>
    have hsplit : sceneReapTrace (b :: rest)
        = (if b.destroyed then [Ev.reaped b.id] else [])
            ++ sceneReapTrace rest := by
      simp [sceneReapTrace]
    rw [hsplit, List.count_append]
    simp only [List.map_cons, List.nodup_cons] at h
    rcases List.mem_cons.mp ha with rfl | hmem
    · rw [count_reaped_zero rest a.id h.1]
      cases hba : a.destroyed <;> simp [hba]
    · have hne : b.id ≠ a.id := fun hcon =>
        h.1 (hcon ▸ List.mem_map.mpr ⟨a, hmem, rfl⟩)
      rw [ih h.2 hmem]
      cases hbb : b.destroyed <;> simp [hbb, List.count_cons, hne]

theorem filter_id_eq_single (l : List Actor)
    (h : (l.map fun a => a.id).Nodup) (a : Actor) (ha : a ∈ l) :
    l.filter (fun b => b.id == a.id) = [a] := by
  induction l with
  | nil => cases ha
  | cons b rest ih =>
    simp only [List.map_cons, List.nodup_cons] at h
    rcases List.mem_cons.mp ha with rfl | hmem
    · have hrest : rest.filter (fun x => x.id == a.id) = [] := by
        rw [List.filter_eq_nil]
        intro x hx
        simp only [beq_iff_eq]
        intro hcon
        exact h.1 ((List.mem_map).mpr ⟨x, hx, hcon⟩)
      simp [List.filter_cons, hrest]
    · have hne : b.id ≠ a.id := by
        intro hcon
        exact h.1 (hcon ▸ (List.mem_map).mpr ⟨a, hmem, rfl⟩)
      simp only [List.filter_cons, beq_iff_eq, hne, if_neg]
      simpa using ih h.2 hmem

theorem scenePhase1_map_id (l : List Actor) (dt : ℚ) :
    (scenePhase1 l dt).map (fun a => a.id) = l.map fun a => a.id := by
  simp only [scenePhase1, List.map_map]
  apply List.map_congr_left
  intro a _
  by_cases ha : a.active <;> simp [ha, update_fst_id]

/-- C1: Scene::Update is a strict two-phase barrier.  With distinct actor
identities: (i) every actor with active == true receives exactly one
Update(dt) call this frame and inactive actors receive none; (ii) every
Update delivery precedes every reap in the frame's event trace; (iii) the
reap pass is one coherent pass — every actor destroyed after phase 1 has
its Destroyed() hook run exactly once and is erased, every other actor is
kept with its post-update state; (iv) no destroyed actor remains in the
container; (v) a reaped actor is not drawn from the resulting container
and receives no Update call in any later frame. -/
theorem scene_update_two_phase (s : Scene) (dt : ℚ)
    (hids : (s.actors.map fun a => a.id).Nodup) :
    (∀ a ∈ s.actors,
        (s.Update dt).2.count (Ev.updated a.id) = if a.active then 1 else 0) ∧
    (∀ i j x y, (s.Update dt).2.get? i = some (Ev.updated x) →
        (s.Update dt).2.get? j = some (Ev.reaped y) → i < j) ∧
    (∀ a ∈ scenePhase1 s.actors dt,
        (a.destroyed = true →
            (s.Update dt).2.count (Ev.reaped a.id) = 1
              ∧ a.id ∉ (s.Update dt).1.actors.map fun b => b.id)
          ∧ (a.destroyed = false → a ∈ (s.Update dt).1.actors)) ∧
    (∀ a ∈ (s.Update dt).1.actors, a.destroyed = false) ∧
    (∀ i, Ev.reaped i ∈ (s.Update dt).2 →
        i ∉ sceneDrawIds (s.Update dt).1
          ∧ ∀ dt2, Ev.updated i ∉ ((s.Update dt).1.Update dt2).2) := by
  have hafter := scenePhase1_map_id s.actors dt
  have hnd2 : ((scenePhase1 s.actors dt).map fun a => a.id).Nodup := by
    rw [hafter]; exact hids
  have htr : (s.Update dt).2
      = scenePhase1Trace s.actors
          ++ sceneReapTrace (scenePhase1 s.actors dt) := rfl
  have hact : (s.Update dt).1.actors
      = (scenePhase1 s.actors dt).filter (fun a => !a.destroyed) := rfl
  have hkey : ∀ a ∈ scenePhase1 s.actors dt, a.destroyed = true →
      a.id ∉ (s.Update dt).1.actors.map fun b => b.id := by
    intro a ha hdes hcon
    rw [hact] at hcon
    obtain ⟨b, hb, hbid⟩ := List.mem_map.mp hcon
    have hb1 := List.mem_of_mem_filter hb
    have hb2 : (!b.destroyed) = true := (List.mem_filter.mp hb).2
    have hba : b = a := by
      have hsingle := filter_id_eq_single _ hnd2 a ha
      have hbmem : b ∈ (scenePhase1 s.actors dt).filter
          (fun x => x.id == a.id) :=
        List.mem_filter.mpr ⟨hb1, by simp [hbid]⟩
      rw [hsingle] at hbmem
      simpa using hbmem
    rw [hba, hdes] at hb2
    simp at hb2
  refine ⟨?_, ?_, ?_, ?_, ?_⟩
  · intro a ha
    rw [htr, List.count_append, count_updated_of_mem s.actors hids a ha,
      count_updated_reapTrace]
    simp
  · intro i j x y hi hj
    rw [htr] at hi hj
    have hPi : i < (scenePhase1Trace s.actors).length := by
      by_contra hcon
      push_neg at hcon
      rw [List.get?_append_right hcon] at hi
      obtain ⟨a, _, _, heq⟩ :=
        (mem_sceneReapTrace _ _).mp (List.get?_mem hi)
      exact Ev.noConfusion heq
    have hPj : (scenePhase1Trace s.actors).length ≤ j := by
      by_contra hcon
      push_neg at hcon
      rw [List.get?_append hcon] at hj
      obtain ⟨a, _, _, heq⟩ :=
        (mem_scenePhase1Trace _ _).mp (List.get?_mem hj)
      exact Ev.noConfusion heq
    omega
  · intro a ha
    refine ⟨fun hdes => ⟨?_, hkey a ha hdes⟩, fun hnd => ?_⟩
    · rw [htr, List.count_append, count_reaped_phase1Trace,
        count_reaped_of_mem _ hnd2 a ha, hdes]
      rfl
    · rw [hact]
      exact List.mem_filter.mpr ⟨ha, by simp [hnd]⟩
  · intro a ha
    rw [hact] at ha
    have := (List.mem_filter.mp ha).2
    simpa using this
  · intro i hmem
    rw [htr] at hmem
    rcases List.mem_append.mp hmem with hP | hR
    · obtain ⟨a, _, _, heq⟩ := (mem_scenePhase1Trace _ _).mp hP
      exact Ev.noConfusion heq
    · obtain ⟨a, ha, hdes, heq⟩ := (mem_sceneReapTrace _ _).mp hR
      have hia : i = a.id := by injection heq
      subst hia
      have hnotin := hkey a ha hdes
      constructor
      · intro hdraw
        obtain ⟨b, hb, hbid⟩ := List.mem_map.mp hdraw
        exact hnotin (List.mem_map.mpr
          ⟨b, List.mem_of_mem_filter hb, hbid⟩)
      · intro dt2 hupd
        have htr2 : ((s.Update dt).1.Update dt2).2
            = scenePhase1Trace (s.Update dt).1.actors
                ++ sceneReapTrace
                    (scenePhase1 (s.Update dt).1.actors dt2) := rfl
        rw [htr2] at hupd
        rcases List.mem_append.mp hupd with h2 | h2
        · obtain ⟨b, hb, _, heq2⟩ := (mem_scenePhase1Trace _ _).mp h2
          have hib : a.id = b.id := by injection heq2
          exact hnotin (by rw [hib]; exact List.mem_map.mpr ⟨b, hb, rfl⟩)
        · obtain ⟨b, _, _, heq2⟩ := (mem_sceneReapTrace _ _).mp h2
          exact Ev.noConfusion heq2

/-- A concrete two-actor scene: one live active actor and one active actor
already marked destroyed. -/
def sceneW : Scene :=
  ⟨[{ id := 1, active := true },
    { id := 2, active := true, destroyed := true }]⟩

/-- Witness for the two-phase update theorem on the concrete scene: the
live actor is updated exactly once, the destroyed actor is reaped exactly
once and its id is gone from the container. -/
theorem scene_update_two_phase_w :
    ((sceneW.Update 1).2.count (Ev.updated 1) = 1)
      ∧ ((sceneW.Update 1).2.count (Ev.reaped 2) = 1)
      ∧ (2 ∉ (sceneW.Update 1).1.actors.map fun b => b.id) := by
  obtain ⟨h1, _, h3, _, _⟩ := scene_update_two_phase sceneW 1 (by decide)
  refine ⟨?_, ?_, ?_⟩
  · have := h1 { id := 1, active := true } (by decide)
    simpa using this
  · exact (h3 { id := 2, active := true, destroyed := true }
      (by decide) |>.1 rfl).1
  · exact (h3 { id := 2, active := true, destroyed := true }
      (by decide) |>.1 rfl).2

/-- Embedding of the removal loop of Scene::RemoveAllActors (Scene.cpp,
lines 148-169): walk the container; each actor with !persistent || force
has Destroyed() invoked and is erased, every other actor is kept in place.
The trace lists the ids whose Destroyed() hook ran, in invocation order. -/
def removeAllActorsLoop (actors : List Actor) (force : Bool) :
    List Actor × List Nat :=
  match actors with
  | [] => ([], [])
  | a :: rest =>
    let r := removeAllActorsLoop rest force
    if !a.persistent || force then (r.1, a.id :: r.2)
    else (a :: r.1, r.2)

/-- Embedding of Scene::RemoveAllActors (Scene.cpp, lines 148-169). -/
def Scene.RemoveAllActors (s : Scene) (force : Bool) : Scene × List Nat :=
  (⟨(removeAllActorsLoop s.actors force).1⟩,
   (removeAllActorsLoop s.actors force).2)

/-- C7: Scene::RemoveAllActors removes exactly the actors satisfying
!persistent || force, invoking Destroyed() on each removed actor (the
trace), in container order; the survivors are exactly the other actors,
kept untouched (bitwise-identical values) in their relative order; with
force the container empties, without force exactly the persistent actors
remain, and no surviving actor's Destroyed() hook runs. -/
theorem scene_removeAllActors_spec (s : Scene) (force : Bool) :
    (s.RemoveAllActors force).1.actors
        = s.actors.filter (fun a => a.persistent && !force) ∧
    (s.RemoveAllActors force).2
        = (s.actors.filter fun a => !a.persistent || force).map
            (fun a => a.id) ∧
    List.Sublist (s.RemoveAllActors force).1.actors s.actors ∧
    (force = true → (s.RemoveAllActors force).1.actors = []) ∧
    (force = false → (s.RemoveAllActors force).1.actors
        = s.actors.filter fun a => a.persistent) ∧
    ((s.actors.map fun a => a.id).Nodup →
      ∀ a ∈ s.actors, a.persistent = true → force = false →
        a.id ∉ (s.RemoveAllActors force).2) := by
  have hmain : ∀ l : List Actor,
      (removeAllActorsLoop l force).1
          = l.filter (fun a => a.persistent && !force)
        ∧ (removeAllActorsLoop l force).2
          = (l.filter fun a => !a.persistent || force).map fun a => a.id := by
    intro l
    induction l with
    | nil => exact ⟨rfl, rfl⟩
    | cons a rest ih =>
      cases hp : a.persistent <;> cases hf : force <;>
        (simp only [hf] at ih;
         simp [removeAllActorsLoop, List.filter_cons, hp, hf, ih.1, ih.2])
  have hunf1 : (s.RemoveAllActors force).1.actors
      = (removeAllActorsLoop s.actors force).1 := rfl
  have hunf2 : (s.RemoveAllActors force).2
      = (removeAllActorsLoop s.actors force).2 := rfl
  refine ⟨(hmain s.actors).1, (hmain s.actors).2, ?_, ?_, ?_, ?_⟩
  · rw [hunf1, (hmain s.actors).1]
    exact List.filter_sublist s.actors
  · intro hf
    rw [hunf1, (hmain s.actors).1, hf]
    simp
  · intro hf
    rw [hunf1, (hmain s.actors).1, hf]
    simp
  · intro hnd a ha hp hf hcon
    rw [hunf2, (hmain s.actors).2] at hcon
    obtain ⟨b, hb, hbid⟩ := List.mem_map.mp hcon
    have hb1 := List.mem_of_mem_filter hb
    have hb2 := (List.mem_filter.mp hb).2
    have hba : b = a := by
      have hsingle := filter_id_eq_single _ hnd a ha
      have hbmem : b ∈ s.actors.filter (fun x => x.id == a.id) :=
        List.mem_filter.mpr ⟨hb1, by simp [hbid]⟩
      rw [hsingle] at hbmem
      simpa using hbmem
    rw [hba, hp, hf] at hb2
    simp at hb2

/-- Lookup in a std::map keyed by strings, modelled as an association
list: the first binding of the key, if any. -/
def lookupKey {α : Type} (m : List (Str × α)) (k : Str) : Option α :=
  match m with
  | [] => none
  | (k2, v) :: rest => if k2 = k then some v else lookupKey rest k

/-- Insertion-or-overwrite, the effect of assigning through the map's
subscript operator. -/
def insertKey {α : Type} (m : List (Str × α)) (k : Str) (v : α) :
    List (Str × α) :=
  match m with
  | [] => [(k, v)]
  | (k2, v2) :: rest =>
    if k2 = k then (k, v) :: rest else (k2, v2) :: insertKey rest k v

theorem lookupKey_insertKey_self {α : Type} (m : List (Str × α))
    (k : Str) (v : α) : lookupKey (insertKey m k v) k = some v := by
  induction m with
  | nil => simp [insertKey, lookupKey]
  | cons p rest ih =>
    obtain ⟨k2, v2⟩ := p
    by_cases h : k2 = k
    · simp [insertKey, lookupKey, h]
    · simp [insertKey, lookupKey, h, ih]

/-- A shared resource instance: ptr models the address identity of the
shared_ptr target, ty the dynamic type of the stored instance. -/
structure Res where
  ptr : Nat
  ty : Nat
  deriving DecidableEq, Repr

/-- State of the ResourceManager singleton, together with an allocation
counter (fresh addresses for make_shared) and a counter of virtual Load
invocations, which make instance identity and load effort observable. -/
structure RMState where
  resources : List (Str × Res) := []
  nextPtr : Nat := 0
  loadCalls : Nat := 0
  deriving DecidableEq, Repr

/-- Embedding of ResourceManager::GetWithID (ResourceManager.h, lines
107-145): lowercase the cache key; on a hit, a checked downcast of the
cached instance (modelled as an exact dynamic-type comparison) either
returns the shared instance or logs and returns an empty handle; on a
miss, make_shared constructs a fresh instance and its Load(name, ...) is
invoked — on failure the instance is discarded without caching, on
success it is inserted under the canonical key and returned.  loads T
name models whether a fresh T's Load(name, ...) returns true. -/
def ResourceManager.GetWithID (loads : Nat → Str → Bool) (T : Nat)
    (id name : Str) (s : RMState) : Option Res × RMState :=
  match lookupKey s.resources (toLower id) with
  | some base =>
      if base.ty = T then (some base, s)
      else (none, s)
  | none =>
      if loads T name then
        (some ⟨s.nextPtr, T⟩,
         { resources := insertKey s.resources (toLower id) ⟨s.nextPtr, T⟩
           nextPtr := s.nextPtr + 1
           loadCalls := s.loadCalls + 1 })
      else
        (none,
         { s with nextPtr := s.nextPtr + 1, loadCalls := s.loadCalls + 1 })

/-- Embedding of ResourceManager::Get (ResourceManager.h, lines 97-101):
forwards to GetWithID with the name serving as both cache id and load
path. -/
def ResourceManager.Get (loads : Nat → Str → Bool) (T : Nat)
    (name : Str) (s : RMState) : Option Res × RMState :=
  ResourceManager.GetWithID loads T name name s

/-- C5: GetWithID returns an empty handle in every failure case and never
mutates the cache on a failed request.  On a cached entry that fails the
downcast to the requested type it returns empty without reloading (state
fully unchanged); on a cache miss whose Load fails it returns empty, the
failed instance is not inserted (the cache is unchanged and a later
request for the same key still misses), and exactly one Load invocation
was spent. -/
theorem resource_get_failure_contract :
    (∀ (loads : Nat → Str → Bool) (T : Nat) (id name : Str)
        (s : RMState) (base : Res),
      lookupKey s.resources (toLower id) = some base → base.ty ≠ T →
        ResourceManager.GetWithID loads T id name s = (none, s)) ∧
    (∀ (loads : Nat → Str → Bool) (T : Nat) (id name : Str) (s : RMState),
      lookupKey s.resources (toLower id) = none → loads T name = false →
        (ResourceManager.GetWithID loads T id name s).1 = none ∧
        ((ResourceManager.GetWithID loads T id name s).2).resources
          = s.resources ∧
        ((ResourceManager.GetWithID loads T id name s).2).loadCalls
          = s.loadCalls + 1 ∧
        lookupKey
            ((ResourceManager.GetWithID loads T id name s).2).resources
            (toLower id) = none) := by
  constructor
  · intro loads T id name s base hl hne
    simp [ResourceManager.GetWithID, hl, hne]
  · intro loads T id name s hl hload
    simp [ResourceManager.GetWithID, hl, hload]

/-- A load oracle that always fails. -/
def alwaysFails : Nat → Str → Bool := fun _ _ => false

/-- C4 counterexample: when the load fails, two Get requests for the same
canonical key return empty handles (no underlying shared instance) and
invoke Load twice — the second request is not served from the cache,
because a failed load is never cached. -/
theorem resource_cache_dedup_cex :
    ¬ (let r1 := ResourceManager.Get alwaysFails 0 "foo".toList {};
       let r2 := ResourceManager.Get alwaysFails 0 "foo".toList r1.2;
       (r1.1).isSome ∧ r1.1 = r2.1
         ∧ r2.2.loadCalls ≤ ({} : RMState).loadCalls + 1) := by
  decide

/-- C4 (amended): provided the canonical key is not yet cached and the
first request's Load succeeds, two Get requests whose names have the same
lowercased canonical form return handles to the identical underlying
instance (same allocation identity, not merely equal value) and invoke
Load exactly once across the two calls — the second request is served
from the cache. -/
theorem resource_cache_dedup (loads : Nat → Str → Bool) (T : Nat)
    (name1 name2 : Str) (s : RMState)
    (hkey : toLower name1 = toLower name2)
    (hmiss : lookupKey s.resources (toLower name1) = none)
    (hload : loads T name1 = true) :
    (ResourceManager.Get loads T name1 s).1 = some ⟨s.nextPtr, T⟩
      ∧ (ResourceManager.Get loads T name2
            (ResourceManager.Get loads T name1 s).2).1
          = some ⟨s.nextPtr, T⟩
      ∧ (ResourceManager.Get loads T name2
            (ResourceManager.Get loads T name1 s).2).2.loadCalls
          = s.loadCalls + 1 := by
  have h1 : ResourceManager.Get loads T name1 s
      = (some ⟨s.nextPtr, T⟩,
         { resources := insertKey s.resources (toLower name1) ⟨s.nextPtr, T⟩
           nextPtr := s.nextPtr + 1
           loadCalls := s.loadCalls + 1 }) := by
    simp [ResourceManager.Get, ResourceManager.GetWithID, hmiss, hload]
  rw [h1]
  have h2 : lookupKey
      (insertKey s.resources (toLower name1) ⟨s.nextPtr, T⟩)
      (toLower name2) = some ⟨s.nextPtr, T⟩ := by
    rw [← hkey]
    exact lookupKey_insertKey_self _ _ _
  simp [ResourceManager.Get, ResourceManager.GetWithID, h2]

/-- A load oracle that always succeeds. -/
def alwaysLoads : Nat → Str → Bool := fun _ _ => true

/-- Witness for the cache-deduplication theorem: a concrete successful
load under key Foo, then a hit under FOO, same instance, one Load call. -/
theorem resource_cache_dedup_w :
    (ResourceManager.Get alwaysLoads 0 "Foo".toList {}).1 = some ⟨0, 0⟩
      ∧ (ResourceManager.Get alwaysLoads 0 "FOO".toList
            (ResourceManager.Get alwaysLoads 0 "Foo".toList {}).2).1
          = some ⟨0, 0⟩
      ∧ (ResourceManager.Get alwaysLoads 0 "FOO".toList
            (ResourceManager.Get alwaysLoads 0 "Foo".toList {}).2).2.loadCalls
          = ({} : RMState).loadCalls + 1 :=
  resource_cache_dedup alwaysLoads 0 "Foo".toList "FOO".toList {}
    (by decide) (by decide) (by decide)

/-- A polymorphic Object instance produced by the factory, reduced to its
dynamic type tag. -/
structure FObj where
  ty : Nat
  deriving DecidableEq, Repr

/-- A registry entry (CreatorBase, Factory.h): default-construct a
registered concrete type (Creator) or clone a stored prototype instance
(PrototypeCreator). -/
inductive CreatorEntry where
  | creator (ty : Nat)
  | prototypeCreator (proto : FObj)
  deriving DecidableEq, Repr

/-- The strategy's virtual Create: Creator default-constructs its type,
PrototypeCreator clones its prototype (same dynamic type and state). -/
def CreatorEntry.create : CreatorEntry → FObj
  | .creator t => ⟨t⟩
  | .prototypeCreator p => p

/-- Model of neu::Factory (Core/Factory.h): the registry mapping
lowercased names to creation strategies. -/
structure Factory where
  registry : List (Str × CreatorEntry) := []
  deriving DecidableEq, Repr

/-- Embedding of Factory::Register (Factory.h, lines 204-216): install a
default-construct strategy under the lowercased name. -/
def Factory.Register (f : Factory) (T : Nat) (name : Str) : Factory :=
  ⟨insertKey f.registry (toLower name) (.creator T)⟩

/-- Embedding of Factory::RegisterPrototype (Factory.h, lines 222-235). -/
def Factory.RegisterPrototype (f : Factory) (proto : FObj) (name : Str) :
    Factory :=
  ⟨insertKey f.registry (toLower name) (.prototypeCreator proto)⟩

/-- Embedding of Factory::Create (Factory.h, lines 241-271): lowercase
lookup; if a strategy is found, invoke it and attempt the checked
downcast to the requested type (modelled as an exact dynamic-type
comparison), returning empty on lookup or downcast failure. -/
def Factory.Create (f : Factory) (T : Nat) (name : Str) : Option FObj :=
  match lookupKey f.registry (toLower name) with
  | some entry =>
      if entry.create.ty = T then some entry.create else none
  | none => none

/-- C8: Factory name lookup is case-insensitive — after registering under
n, Create under any m with the same lowercase form finds exactly the
strategy stored under n's key, and creating with the registered type
succeeds and yields an instance of that type. -/
theorem factory_case_insensitive (f : Factory) (T : Nat) (n m : Str)
    (h : toLower m = toLower n) :
    lookupKey (f.Register T n).registry (toLower m)
        = some (.creator T)
      ∧ (f.Register T n).Create T m = some ⟨T⟩ := by
  have hl : lookupKey (f.Register T n).registry (toLower m)
      = some (.creator T) := by
    rw [h]
    exact lookupKey_insertKey_self _ _ _
  refine ⟨hl, ?_⟩
  simp [Factory.Create, hl, CreatorEntry.create]

/-- Witness for factory case-insensitivity: registering Foo makes Create
succeed for foo, FOO and Foo, producing objects of the registered
type. -/
theorem factory_case_insensitive_w :
    ((Factory.Register ⟨[]⟩ 7 "Foo".toList).Create 7 "foo".toList
        = some ⟨7⟩)
      ∧ ((Factory.Register ⟨[]⟩ 7 "Foo".toList).Create 7 "FOO".toList
        = some ⟨7⟩)
      ∧ ((Factory.Register ⟨[]⟩ 7 "Foo".toList).Create 7 "Foo".toList
        = some ⟨7⟩) :=
  ⟨(factory_case_insensitive ⟨[]⟩ 7 "Foo".toList "foo".toList
      (by decide)).2,
   (factory_case_insensitive ⟨[]⟩ 7 "Foo".toList "FOO".toList
      (by decide)).2,
   (factory_case_insensitive ⟨[]⟩ 7 "Foo".toList "Foo".toList
      (by decide)).2⟩

/-- State of the EventManager: lowercased event key → observers in
registration order, each observer modelled by its address. -/
structure EMState where
  observers : List (Str × List Nat) := []
  deriving DecidableEq, Repr

/-- Embedding of EventManager::AddObserver (EventManager.cpp, lines
25-30): push the observer onto the back of the bucket under the
lowercased id; the subscript operator creates an empty bucket on first
use. -/
def EventManager.AddObserver (s : EMState) (id : Str) (obs : Nat) :
    EMState :=
  ⟨insertKey s.observers (toLower id)
    (((lookupKey s.observers (toLower id)).getD []) ++ [obs])⟩

/-- Embedding of EventManager::Notify (EventManager.cpp, lines 106-125):
look up the lowercased event id; when a bucket exists, OnNotify runs on
each observer in registration order (the returned delivery trace); an
unregistered id delivers to nobody and is not an error — the state is
returned unchanged in every case. -/
def EventManager.Notify (s : EMState) (eventId : Str) :
    List Nat × EMState :=
  match lookupKey s.observers (toLower eventId) with
  | some bucket => (bucket, s)
  | none => ([], s)

/-- C9: Notify delivers the event synchronously to every observer
registered under the case-insensitively matched id, once per
registration, in registration order, and never mutates the manager; an
id with no bucket delivers to nobody; concretely, two observers
registered under damage are both invoked exactly once in order, and an
unregistered id invokes neither. -/
theorem event_notify_contract :
    (∀ (s : EMState) (eventId : Str),
        (EventManager.Notify s eventId).2 = s) ∧
    (∀ (s : EMState) (eventId : Str),
        lookupKey s.observers (toLower eventId) = none →
          (EventManager.Notify s eventId).1 = []) ∧
    (∀ (s : EMState) (id : Str) (o1 o2 : Nat) (eventId : Str),
        toLower eventId = toLower id →
          ((EventManager.Notify
              (EventManager.AddObserver
                (EventManager.AddObserver s id o1) id o2) eventId).1
            = ((lookupKey s.observers (toLower id)).getD [])
                ++ [o1, o2])) ∧
    ((EventManager.Notify
        (EventManager.AddObserver
          (EventManager.AddObserver ⟨[]⟩ "damage".toList 1)
          "damage".toList 2) "damage".toList).1 = [1, 2]
      ∧ (EventManager.Notify
          (EventManager.AddObserver
            (EventManager.AddObserver ⟨[]⟩ "damage".toList 1)
            "damage".toList 2) "unregistered_id".toList).1 = []) := by
  refine ⟨?_, ?_, ?_, by decide⟩
  · intro s eventId
    cases h : lookupKey s.observers (toLower eventId) <;>
      simp [EventManager.Notify, h]
  · intro s eventId h
    simp [EventManager.Notify, h]
  · intro s id o1 o2 eventId h
    have h1 : lookupKey (EventManager.AddObserver s id o1).observers
        (toLower id)
        = some (((lookupKey s.observers (toLower id)).getD [])
            ++ [o1]) := by
      unfold EventManager.AddObserver
      exact lookupKey_insertKey_self _ _ _
    have h2 : lookupKey
        ((EventManager.AddObserver
            (EventManager.AddObserver s id o1) id o2)).observers
        (toLower id)
        = some (((lookupKey s.observers (toLower id)).getD [])
            ++ [o1, o2]) := by
      conv in EventManager.AddObserver _ id o2 =>
        rw [EventManager.AddObserver]
      rw [h1]
      rw [lookupKey_insertKey_self]
      simp
    simp [EventManager.Notify, h, h2]

/-- One entry of the components array of a serialized actor definition:
its optional type field (none when the entry carries no type). -/
structure CompEntry where
  ty : Option Str
  deriving DecidableEq, Repr

/-- Log events emitted by the component loop of Actor::Read: a warning for
an entry without a type, an error for a type the factory cannot create. -/
inductive ReadErr where
  | missingType
  | createFailed (ty : Str)
  deriving DecidableEq, Repr

/-- Embedding of the component-loading loop of Actor::Read (Actor.cpp,
lines 180-209).  createComp models Factory::Instance().Create of a
Component from the type string followed by the component's own Read of
its entry (none when the type is unregistered or mismatched).  An entry
without a type logs and is skipped; an entry whose creation fails logs
and is skipped; every successfully created component is attached through
AddComponent, in entry order. -/
def Actor.ReadComponents (createComp : Str → Option Component)
    (entries : List CompEntry) (a : Actor) : Actor × List ReadErr :=
  match entries with
  | [] => (a, [])
  | e :: rest =>
    match e.ty with
    | none =>
        let r := Actor.ReadComponents createComp rest a
        (r.1, .missingType :: r.2)
    | some t =>
        match createComp t with
        | none =>
            let r := Actor.ReadComponents createComp rest a
            (r.1, .createFailed t :: r.2)
        | some c => Actor.ReadComponents createComp rest (a.AddComponent c)

/-- C6: the component loop of Actor::Read is partial-failure tolerant —
exactly the entries without a type or whose factory creation fails are
skipped, each logging one diagnostic, and every other entry contributes
its component, attached in entry order with the owner back-pointer set to
the actor; in particular, three entries whose middle type is unregistered
yield exactly the first and third components in that order, plus one
logged error for the middle entry. -/
theorem actor_read_components_tolerant :
    (∀ (createComp : Str → Option Component) (entries : List CompEntry)
        (a : Actor),
      (Actor.ReadComponents createComp entries a).1.components
          = a.components
              ++ (entries.filterMap fun e => e.ty.bind createComp).map
                  (fun c => { c with owner := some a.id })
        ∧ (Actor.ReadComponents createComp entries a).2
          = entries.filterMap fun e =>
              match e.ty with
              | none => some ReadErr.missingType
              | some t =>
                match createComp t with
                | none => some (ReadErr.createFailed t)
                | some _ => none) ∧
    (∀ (createComp : Str → Option Component) (t1 t2 t3 : Str)
        (c1 c3 : Component) (a : Actor),
      createComp t1 = some c1 → createComp t2 = none →
      createComp t3 = some c3 → a.components = [] →
        (Actor.ReadComponents createComp
            [⟨some t1⟩, ⟨some t2⟩, ⟨some t3⟩] a).1.components
            = [{ c1 with owner := some a.id },
               { c3 with owner := some a.id }]
          ∧ (Actor.ReadComponents createComp
              [⟨some t1⟩, ⟨some t2⟩, ⟨some t3⟩] a).2
            = [ReadErr.createFailed t2]) := by
  constructor
  · intro createComp entries a
    induction entries generalizing a with
    | nil => simp [Actor.ReadComponents]
    | cons e rest ih =>
      cases he : e.ty with
      | none =>
        simp [Actor.ReadComponents, he, (ih a).1, (ih a).2]
      | some t =>
        cases hc : createComp t with
        | none =>
          simp [Actor.ReadComponents, he, hc, (ih a).1, (ih a).2]
        | some c =>
          have hrec := ih (a.AddComponent c)
          have hstep : Actor.ReadComponents createComp (e :: rest) a
              = Actor.ReadComponents createComp rest (a.AddComponent c) := by
            simp [Actor.ReadComponents, he, hc]
          refine ⟨?_, ?_⟩
          · rw [hstep, hrec.1]
            simp [Actor.AddComponent, List.filterMap_cons, he, hc]
          · rw [hstep, hrec.2]
            simp [List.filterMap_cons, he, hc]
  · intro createComp t1 t2 t3 c1 c3 a h1 h2 h3 hempty
    simp [Actor.ReadComponents, h1, h2, h3, Actor.AddComponent, hempty]

end Neu
